import Mathlib

/-!
Verification of the KGW difficulty simulator (`kgwsimulator.go`).

Shallow embedding conventions:
* Go `big.Int` values are `ℤ`.  Go `big.Int.Div` is Euclidean division, which is
  exactly `Int.ediv`, the `/` of `ℤ` in Lean; `big.Int.Rsh` is an arithmetic
  (floor) shift, embedded as `Int.fdiv _ (2 ^ k)`.
* Go `uint32` / `int64` values are `ℕ` / `ℤ` with explicit `% 2 ^ 32` /
  two's-complement wrapping where the Go code truncates.
* Go `float64` quantities (the event-horizon envelope of the retarget loop) are
  embedded as real numbers; the comparisons on them are classical propositions.
* A Go run-time panic (slice index out of range, division by zero) is embedded
  as an explicit error value (`KGWPanic` / `Option.none`); the Go function's
  declared `error` result is always `nil` in the source, so every ordinary
  return is `Except.ok`.
-/

set_option maxRecDepth 100000

instance {ε α : Type} [DecidableEq ε] [DecidableEq α] : DecidableEq (Except ε α)
  | .error e, .error f =>
    if h : e = f then .isTrue (by rw [h]) else .isFalse (fun hh => h (by injection hh))
  | .error _, .ok _ => .isFalse (fun hh => by injection hh)
  | .ok _, .error _ => .isFalse (fun hh => by injection hh)
  | .ok a, .ok b =>
    if h : a = b then .isTrue (by rw [h]) else .isFalse (fun hh => h (by injection hh))

/-- Reduced `wire.BlockHeader`: the fields the simulator reads — the compact
difficulty `Bits` (uint32) and the Unix `Timestamp` in seconds. -/
structure BlockHeader where
  Bits : ℕ
  Timestamp : ℤ
deriving DecidableEq

/-- The network parameter fields consumed by the core (`Params` in the source):
`PowLimit`, its compact form `PowLimitBits`, and `TargetTimePerBlock` in
seconds (the source stores a `time.Duration` and reads
`int64(p.TargetTimePerBlock.Seconds())`). -/
structure Params where
  PowLimit : ℤ
  PowLimitBits : ℕ
  TargetTimePerBlock : ℤ
deriving DecidableEq

/-- The reference network parameters (`VertcoinParams` in the source):
`PowLimit = 2^236 - 1`, `PowLimitBits = 0x1e0fffff`, 150-second blocks. -/
def VertcoinParams : Params :=
  { PowLimit := 2 ^ 236 - 1
    PowLimitBits := 0x1e0fffff
    TargetTimePerBlock := 150 }

/-- Worker for `byteLen`: repeated division by 256, with structural fuel so
that it evaluates by kernel reduction (`fuel ≥ n` always suffices). -/
def byteLenAux : ℕ → ℕ → ℕ
  | 0, _ => 0
  | fuel + 1, n => if n = 0 then 0 else byteLenAux fuel (n / 256) + 1

/-- Byte length of a natural number, `len(n.Bytes())` for a Go `big.Int`
magnitude: the least `k` with `n < 256^k` (and `0` for `0`). -/
def byteLen (n : ℕ) : ℕ :=
  byteLenAux n n

/-- Function `CompactToBig`: decode a compact ("nBits") value into a target.
Mirrors the source: mantissa = low 23 bits, sign = bit 23, exponent = high
byte; for `exponent ≤ 3` the mantissa is shifted right, otherwise the value is
the mantissa shifted left by `8*(exponent-3)` bits. -/
def CompactToBig (compact : ℕ) : ℤ :=
  let mantissa := compact &&& 0x007fffff
  let isNegative := compact &&& 0x00800000 ≠ 0
  let exponent := compact >>> 24
  let bn : ℤ :=
    if exponent ≤ 3 then ((mantissa >>> (8 * (3 - exponent)) : ℕ) : ℤ)
    else ((mantissa <<< (8 * (exponent - 3)) : ℕ) : ℤ)
  if isNegative then -bn else bn

/-- Function `BigToCompact`: encode a target as a compact value.  Mirrors the source:
zero encodes to 0; exponent = byte length of `|n|`; mantissa = the top three
bytes (`uint32(n.Bits()[0])` truncations kept as `% 2^32`; `big.Int.Rsh` on a
negative copy is a floor shift, hence `Int.fdiv`); if bit 23 of the mantissa is
set, shift it right 8 bits and bump the exponent; pack
`uint32(exponent<<24) | mantissa` and set bit 23 for negative inputs. -/
def BigToCompact (n : ℤ) : ℕ :=
  if n = 0 then 0
  else
    let exponent := byteLen n.natAbs
    let mantissa :=
      if exponent ≤ 3 then ((n.natAbs % 2 ^ 32) <<< (8 * (3 - exponent))) % 2 ^ 32
      else (Int.fdiv n (2 ^ (8 * (exponent - 3)))).natAbs % 2 ^ 32
    let mantissa2 := if mantissa &&& 0x00800000 ≠ 0 then mantissa >>> 8 else mantissa
    let exponent2 := if mantissa &&& 0x00800000 ≠ 0 then exponent + 1 else exponent
    let compact := ((exponent2 % 2 ^ 8) <<< 24) ||| mantissa2
    if n < 0 then compact ||| 0x00800000 else compact

/-- Function `CalcWork`: expected work for a compact difficulty,
`⌊2^256 / (target + 1)⌋`, or `0` when the decoded target is not positive. -/
def CalcWork (bits : ℕ) : ℤ :=
  let difficultyNum := CompactToBig bits
  if difficultyNum ≤ 0 then 0
  else 2 ^ 256 / (difficultyNum + 1)

/-- Two's-complement wrap of an integer into the `int64` range. -/
def int64Wrap (x : ℤ) : ℤ :=
  (x + 2 ^ 63) % 2 ^ 64 - 2 ^ 63

/-- Go `big.Int.Int64()` as implemented by `math/big`: reinterpret the low
64 bits of the magnitude as an `int64` and negate (with `int64` wrap-around)
for negative numbers.  The result is implementation-defined (documented
"undefined") when the value does not fit in an `int64`. -/
def bigIntInt64 (x : ℤ) : ℤ :=
  let v := int64Wrap (x.natAbs : ℤ)
  if x < 0 then int64Wrap (-v) else v

/-- One per-block time computation of the simulation driver
(`workForBlock.Div(workForBlock, hashRate).Int64()` in `main`):
`big.Int.Div` panics on a zero divisor (embedded as `none`), otherwise the
Euclidean quotient is truncated through `big.Int.Int64()`. -/
def simTimeToBlock (diff : ℕ) (hashRate : ℤ) : Option ℤ :=
  if hashRate = 0 then none
  else some (bigIntInt64 (CalcWork diff / hashRate))

/-- Run-time panic of the retargeting calculator: the source indexes
`headers[len(headers)+idx]` without a bounds check. -/
inductive KGWPanic where
  | indexOutOfRange
deriving DecidableEq

/-- Mutable state of the KGW backward-scan loop (the local variables of
`calcDiffAdjustKGW` that live across iterations). -/
structure KGWState where
  blocksScanned : ℤ
  difficultyAverage : ℤ
  previousDifficultyAverage : ℤ
  actualRate : ℤ
  targetRate : ℤ
  currentHeight : ℤ
  idx : ℤ
  currentBlock : BlockHeader
deriving DecidableEq

/-- The Go slice access `headers[len(headers)+idx]`: panics (`none`) when the
index is out of range. -/
def kgwIndex (headers : List BlockHeader) (idx : ℤ) : Option BlockHeader :=
  let j : ℤ := (headers.length : ℤ) + idx
  if h : 0 ≤ j ∧ j < (headers.length : ℤ) then
    some (headers.get ⟨j.toNat, by omega⟩)
  else none

/-- The header seeding the backward scan: `idx := -2;
currentBlock := headers[len(headers)+idx]` (lines 231–232 of the source). -/
def kgwFirstSample (headers : List BlockHeader) : Option BlockHeader :=
  kgwIndex headers (-2)

/-- Ratio `rateAdjustmentRatio`: `float64(targetRate) / float64(actualRate)`, left
at its initial value `1` when either side is zero (the float arithmetic is
embedded over `ℝ`). -/
noncomputable def rateAdjustmentRatio (actualRate targetRate : ℤ) : ℝ :=
  if actualRate ≠ 0 ∧ targetRate ≠ 0 then (targetRate : ℝ) / (actualRate : ℝ) else 1

/-- Envelope `eventHorizonDeviation`: `1 + 0.7084 * (blocksScanned/144)^(-1.228)` over
`ℝ` (the source computes it with `math.Pow` on `float64`). -/
noncomputable def eventHorizonDeviation (blocksScanned : ℤ) : ℝ :=
  1 + 0.7084 * ((blocksScanned : ℝ) / 144) ^ (-1.228 : ℝ)

open Classical in
/-- The backward-scan loop of `calcDiffAdjustKGW` (lines 244–294).  `i` is the
loop counter starting at 1; `fuel` is structural recursion fuel — the top-level
call passes `4033`, which the `4032 < i` break makes unreachable to exhaust, so
the `fuel = 0` clause (returning like a normal loop exit) is never taken.
Iteration order follows the source: loop guard `currentHeight > 0`; break on
`i > maxBlocks`; update the cumulative average (sample 1 seeds it); recompute
`actualRate` (clamped at 0) and `targetRate`; break when at least `minBlocks`
samples were scanned and the rate ratio leaves the event-horizon envelope;
break on `currentHeight ≤ 1`; otherwise step to `headers[len+idx-1]`. -/
noncomputable def kgwLoop (headers : List BlockHeader) (p : Params)
    (lastSolved : BlockHeader) :
    ℕ → ℕ → KGWState → Except KGWPanic KGWState
  | 0, _, st => .ok st
  | fuel + 1, i, st =>
    if st.currentHeight ≤ 0 then .ok st
    else if 4032 < i then .ok st
    else
      let blocksScanned := st.blocksScanned + 1
      let difficultyAverage : ℤ :=
        if i = 1 then CompactToBig st.currentBlock.Bits
        else (CompactToBig st.currentBlock.Bits - st.previousDifficultyAverage) / (i : ℤ)
          + st.previousDifficultyAverage
      let previousDifficultyAverage := difficultyAverage
      let actualRate0 : ℤ := lastSolved.Timestamp - st.currentBlock.Timestamp
      let targetRate : ℤ := p.TargetTimePerBlock * blocksScanned
      let actualRate : ℤ := if actualRate0 < 0 then 0 else actualRate0
      let stBreak : KGWState :=
        ⟨blocksScanned, difficultyAverage, previousDifficultyAverage, actualRate,
          targetRate, st.currentHeight, st.idx, st.currentBlock⟩
      if 144 ≤ blocksScanned ∧
          (rateAdjustmentRatio actualRate targetRate
              ≤ 1 / eventHorizonDeviation blocksScanned ∨
            eventHorizonDeviation blocksScanned
              ≤ rateAdjustmentRatio actualRate targetRate) then
        .ok stBreak
      else if st.currentHeight ≤ 1 then .ok stBreak
      else
        match kgwIndex headers (st.idx - 1) with
        | none => .error KGWPanic.indexOutOfRange
        | some cb =>
          kgwLoop headers p lastSolved fuel (i + 1)
            ⟨blocksScanned, difficultyAverage, previousDifficultyAverage, actualRate,
              targetRate, st.currentHeight - 1, st.idx - 1, cb⟩

/-- The scan of `calcDiffAdjustKGW` from its initial state: seed block
`headers[len-2]` (also `lastSolved`, which the source never reassigns),
`currentHeight = height - 1`, `idx = -2`, loop counter `i = 1`. -/
noncomputable def kgwLoopFull (headers : List BlockHeader) (height : ℤ)
    (p : Params) : Except KGWPanic KGWState :=
  match kgwFirstSample headers with
  | none => .error KGWPanic.indexOutOfRange
  | some currentBlock =>
    kgwLoop headers p currentBlock 4033 1
      ⟨0, 0, 0, 0, 0, height - 1, -2, currentBlock⟩

/-- The raw new target of `calcDiffAdjustKGW` (lines 296–301), before the
ceiling clamp: the final cumulative average, rescaled by
`actualRate / targetRate` when both are nonzero. -/
noncomputable def kgwRawTarget (headers : List BlockHeader) (height : ℤ)
    (p : Params) : Except KGWPanic ℤ :=
  match kgwLoopFull headers height p with
  | .error e => .error e
  | .ok st =>
    .ok (if st.actualRate ≠ 0 ∧ st.targetRate ≠ 0 then
        st.difficultyAverage * st.actualRate / st.targetRate
      else st.difficultyAverage)

/-- Function `calcDiffAdjustKGW`: for `height - 1 < 144` return the ceiling compact
unchanged; otherwise run the backward scan, clamp the raw target to
`PowLimit`, and re-encode it.  The source's `error` result is always `nil`;
the `Except.error` case embeds the slice-index panic. -/
noncomputable def calcDiffAdjustKGW (headers : List BlockHeader) (height : ℤ)
    (p : Params) : Except KGWPanic ℕ :=
  if height - 1 < 144 then .ok p.PowLimitBits
  else
    match kgwRawTarget headers height p with
    | .error e => .error e
    | .ok newTarget =>
      .ok (BigToCompact (if p.PowLimit < newTarget then p.PowLimit else newTarget))

/-! ### Arithmetic facts about `byteLen` and the bit packing -/

lemma byteLenAux_zero (fuel : ℕ) : byteLenAux fuel 0 = 0 := by
  cases fuel <;> simp [byteLenAux]

lemma byteLenAux_bounds :
    ∀ fuel n, 0 < n → n ≤ fuel →
      1 ≤ byteLenAux fuel n ∧ 256 ^ (byteLenAux fuel n - 1) ≤ n ∧
        n < 256 ^ byteLenAux fuel n := by
  intro fuel
  induction fuel with
  | zero => intro n h1 h2; omega
  | succ fuel ih =>
    intro n h1 h2
    rw [byteLenAux, if_neg (by omega)]
    by_cases hn : n < 256
    · have h0 : n / 256 = 0 := Nat.div_eq_of_lt hn
      rw [h0, byteLenAux_zero]
      simpa using ⟨h1, hn⟩
    · have hm1 : 0 < n / 256 := Nat.div_pos (by omega) (by norm_num)
      have hm2 : n / 256 ≤ fuel := by
        have := Nat.div_lt_self h1 (show 1 < 256 by norm_num)
        omega
      obtain ⟨a1, a2, a3⟩ := ih (n / 256) hm1 hm2
      refine ⟨by omega, ?_, ?_⟩
      · have hmul : 256 ^ (byteLenAux fuel (n / 256) - 1) * 256 ≤ n / 256 * 256 :=
          Nat.mul_le_mul_right _ a2
        have h256 : n / 256 * 256 ≤ n := Nat.div_mul_le_self n 256
        have hpow : 256 ^ (byteLenAux fuel (n / 256) + 1 - 1) =
            256 ^ (byteLenAux fuel (n / 256) - 1) * 256 := by
          rw [← pow_succ]
          congr 1
          omega
        omega
      · have hlt : n < (n / 256 + 1) * 256 := by omega
        have hle : (n / 256 + 1) * 256 ≤ 256 ^ byteLenAux fuel (n / 256) * 256 :=
          Nat.mul_le_mul_right _ (by omega)
        have hpow : 256 ^ (byteLenAux fuel (n / 256) + 1) =
            256 ^ byteLenAux fuel (n / 256) * 256 := by rw [pow_succ]
        omega

lemma byteLen_bounds (n : ℕ) (h : 0 < n) :
    1 ≤ byteLen n ∧ 256 ^ (byteLen n - 1) ≤ n ∧ n < 256 ^ byteLen n :=
  byteLenAux_bounds n n h le_rfl

lemma byteLen_eq (n k : ℕ) (hk : 1 ≤ k) (h1 : 256 ^ (k - 1) ≤ n)
    (h2 : n < 256 ^ k) : byteLen n = k := by
  have h0 : 0 < n := lt_of_lt_of_le (pow_pos (by norm_num) _) h1
  obtain ⟨b1, b2, b3⟩ := byteLen_bounds n h0
  by_contra hne
  rcases Nat.lt_or_ge (byteLen n) k with hlt | hge
  · have : 256 ^ byteLen n ≤ 256 ^ (k - 1) :=
      Nat.pow_le_pow_right (by norm_num) (by omega)
    omega
  · have : 256 ^ k ≤ 256 ^ (byteLen n - 1) :=
      Nat.pow_le_pow_right (by norm_num) (by omega)
    omega

lemma pack_or (e m : ℕ) (hm : m < 2 ^ 24) : (e <<< 24) ||| m = e * 2 ^ 24 + m := by
  rw [Nat.shiftLeft_eq, mul_comm e]
  exact (Nat.mul_add_lt_is_or hm e).symm

lemma pack_or_sign (e m : ℕ) (hm : m < 2 ^ 23) :
    (e * 2 ^ 24 + m) ||| 0x00800000 = e * 2 ^ 24 + 2 ^ 23 + m := by
  have h24 : m < 2 ^ 24 := by omega
  have hx : e * 2 ^ 24 + m = 2 ^ 24 * e ||| m := by
    rw [mul_comm e]
    exact Nat.mul_add_lt_is_or h24 e
  have hm23 : m ||| 0x00800000 = 2 ^ 23 + m := by
    have h1 : (0x00800000 : ℕ) = 2 ^ 23 * 1 := by norm_num
    rw [Nat.lor_comm, h1]
    simpa using (Nat.mul_add_lt_is_or hm 1).symm
  have hsum : 2 ^ 23 + m < 2 ^ 24 := by omega
  calc (e * 2 ^ 24 + m) ||| 0x00800000
      = (2 ^ 24 * e ||| m) ||| 0x00800000 := by rw [hx]
    _ = 2 ^ 24 * e ||| (m ||| 0x00800000) := Nat.lor_assoc _ _ _
    _ = 2 ^ 24 * e ||| (2 ^ 23 + m) := by rw [hm23]
    _ = 2 ^ 24 * e + (2 ^ 23 + m) := (Nat.mul_add_lt_is_or hsum e).symm
    _ = e * 2 ^ 24 + 2 ^ 23 + m := by ring

lemma and_mantissa (x : ℕ) : x &&& 0x007fffff = x % 2 ^ 23 := by
  have h : (0x007fffff : ℕ) = 2 ^ 23 - 1 := by norm_num
  rw [h, Nat.and_pow_two_sub_one_eq_mod]

lemma and_signbit (x : ℕ) : (x &&& 0x00800000 ≠ 0) ↔ x / 2 ^ 23 % 2 = 1 := by
  have h : (0x00800000 : ℕ) = 2 ^ 23 := by norm_num
  rw [h, Nat.and_two_pow]
  by_cases hd : x / 2 ^ 23 % 2 = 1
  · simp [Nat.testBit_to_div_mod, hd]
  · simp [Nat.testBit_to_div_mod, hd]

/-- Decoding an explicitly packed compact value. -/
lemma CompactToBig_unpack (e s m : ℕ) (hm : m < 2 ^ 23) (hs : s ≤ 1) :
    CompactToBig (e * 2 ^ 24 + s * 2 ^ 23 + m) =
      (if s = 0 then 1 else -1) *
        (if e ≤ 3 then ((m / 2 ^ (8 * (3 - e)) : ℕ) : ℤ)
          else ((m * 2 ^ (8 * (e - 3)) : ℕ) : ℤ)) := by
  unfold CompactToBig
  have hmant : (e * 2 ^ 24 + s * 2 ^ 23 + m) &&& 0x007fffff = m := by
    rw [and_mantissa]; omega
  have hexp : (e * 2 ^ 24 + s * 2 ^ 23 + m) >>> 24 = e := by
    rw [Nat.shiftRight_eq_div_pow]; omega
  have hsign : ((e * 2 ^ 24 + s * 2 ^ 23 + m) &&& 0x00800000 ≠ 0) ↔ s = 1 := by
    rw [and_signbit]; omega
  simp only [hmant, hexp]
  rcases Nat.le_one_iff_eq_zero_or_eq_one.mp hs with h0 | h1
  · subst h0
    rw [if_neg (fun hc => absurd (hsign.mp hc) (by norm_num)),
      if_pos (show (0 : ℕ) = 0 from rfl), one_mul]
    split
    · rw [Nat.shiftRight_eq_div_pow]
    · rw [Nat.shiftLeft_eq]
  · subst h1
    rw [if_pos (hsign.mpr rfl), if_neg (show ¬(1 : ℕ) = 0 by norm_num),
      neg_one_mul, neg_inj]
    split
    · rw [Nat.shiftRight_eq_div_pow]
    · rw [Nat.shiftLeft_eq]

/-- Decoding a packed non-negative compact value. -/
lemma CompactToBig_unpack_pos (e m : ℕ) (hm : m < 2 ^ 23) :
    CompactToBig (e * 2 ^ 24 + m) =
      (if e ≤ 3 then ((m / 2 ^ (8 * (3 - e)) : ℕ) : ℤ)
        else ((m * 2 ^ (8 * (e - 3)) : ℕ) : ℤ)) := by
  have h := CompactToBig_unpack e 0 m hm (by norm_num)
  simpa using h

lemma fdiv_natCast_pow (v k : ℕ) :
    Int.fdiv (v : ℤ) ((2 : ℤ) ^ k) = ((v / 2 ^ k : ℕ) : ℤ) := by
  rw [Int.fdiv_eq_ediv _ (by positivity)]
  push_cast
  simp [Int.ofNat_div]

/-- Unfolding `BigToCompact` on a positive natural, with the `uint32` truncations (which
never fire there) removed. -/
lemma BigToCompact_natCast (v : ℕ) (hv : 0 < v) :
    BigToCompact (v : ℤ) =
      (if (if byteLen v ≤ 3 then v * 2 ^ (8 * (3 - byteLen v))
            else v / 2 ^ (8 * (byteLen v - 3))) &&& 0x00800000 ≠ 0 then
        (((byteLen v + 1) % 2 ^ 8) <<< 24) |||
          ((if byteLen v ≤ 3 then v * 2 ^ (8 * (3 - byteLen v))
            else v / 2 ^ (8 * (byteLen v - 3))) >>> 8)
      else
        ((byteLen v % 2 ^ 8) <<< 24) |||
          (if byteLen v ≤ 3 then v * 2 ^ (8 * (3 - byteLen v))
            else v / 2 ^ (8 * (byteLen v - 3)))) := by
  obtain ⟨he1, he2, he3⟩ := byteLen_bounds v hv
  have hne : (v : ℤ) ≠ 0 := by exact_mod_cast hv.ne'
  have hnneg : ¬((v : ℤ) < 0) := not_lt.mpr (Int.natCast_nonneg v)
  unfold BigToCompact
  rw [if_neg hne]
  simp only [Int.natAbs_ofNat]
  by_cases he : byteLen v ≤ 3
  · have hv24 : v < 2 ^ 24 := by
      have hle : (256 : ℕ) ^ byteLen v ≤ 256 ^ 3 := Nat.pow_le_pow_right (by norm_num) he
      have h3 : (256 : ℕ) ^ 3 = 2 ^ 24 := by norm_num
      omega
    have hmod : v % 2 ^ 32 = v := Nat.mod_eq_of_lt (by omega)
    have hm0 : ((v % 2 ^ 32) <<< (8 * (3 - byteLen v))) % 2 ^ 32 =
        v * 2 ^ (8 * (3 - byteLen v)) := by
      rw [hmod, Nat.shiftLeft_eq]
      apply Nat.mod_eq_of_lt
      calc v * 2 ^ (8 * (3 - byteLen v))
          < 256 ^ byteLen v * 2 ^ (8 * (3 - byteLen v)) :=
            (Nat.mul_lt_mul_right (pow_pos (by norm_num) _)).mpr he3
        _ = 2 ^ (8 * byteLen v) * 2 ^ (8 * (3 - byteLen v)) := by
            rw [show (256 : ℕ) = 2 ^ 8 by norm_num, ← pow_mul]
        _ = 2 ^ (8 * byteLen v + 8 * (3 - byteLen v)) := by rw [← pow_add]
        _ ≤ 2 ^ 24 := Nat.pow_le_pow_right (by norm_num) (by omega)
        _ < 2 ^ 32 := by norm_num
    rw [if_pos he, hm0, if_neg hnneg, if_pos he]
    by_cases hb : v * 2 ^ (8 * (3 - byteLen v)) &&& 0x00800000 ≠ 0 <;> simp [hb]
  · have hdiv : (Int.fdiv (v : ℤ) (2 ^ (8 * (byteLen v - 3)))).natAbs % 2 ^ 32 =
        v / 2 ^ (8 * (byteLen v - 3)) := by
      rw [fdiv_natCast_pow, Int.natAbs_ofNat]
      apply Nat.mod_eq_of_lt
      have h24 : v / 2 ^ (8 * (byteLen v - 3)) < 2 ^ 24 := by
        rw [Nat.div_lt_iff_lt_mul (pow_pos (by norm_num) _), ← pow_add]
        calc v < 256 ^ byteLen v := he3
          _ = 2 ^ (8 * byteLen v) := by
              rw [show (256 : ℕ) = 2 ^ 8 by norm_num, ← pow_mul]
          _ = 2 ^ (24 + 8 * (byteLen v - 3)) := by congr 1; omega
      omega
    rw [if_neg he, hdiv, if_neg hnneg, if_neg he]
    by_cases hb : v / 2 ^ (8 * (byteLen v - 3)) &&& 0x00800000 ≠ 0 <;> simp [hb]

lemma and_signbit_lt (x : ℕ) (hx : x < 2 ^ 24) : (x &&& 0x00800000 ≠ 0) ↔ 2 ^ 23 ≤ x := by
  rw [and_signbit]
  omega

lemma pow256_eq (k : ℕ) : (256 : ℕ) ^ k = 2 ^ (8 * k) := by
  rw [show (256 : ℕ) = 2 ^ 8 by norm_num, ← pow_mul]

/-- Decoding any well-masked compact with exponent below 256 stays below
`2^2040`. -/
lemma decode_pos_lt (e' m : ℕ) (hm : m < 2 ^ 23) (he' : e' ≤ 255) :
    CompactToBig (e' * 2 ^ 24 + m) < (2 : ℤ) ^ 2040 := by
  rw [CompactToBig_unpack_pos _ _ hm]
  have h23 : (2 : ℤ) ^ 23 * 2 ^ 2016 < 2 ^ 2040 := by norm_num
  split
  · have h1 : m / 2 ^ (8 * (3 - e')) ≤ m := Nat.div_le_self _ _
    have h2 : (m : ℤ) < 2 ^ 23 := by exact_mod_cast hm
    have h3 : ((m / 2 ^ (8 * (3 - e')) : ℕ) : ℤ) ≤ (m : ℤ) := by exact_mod_cast h1
    nlinarith [pow_pos (show (0:ℤ) < 2 by norm_num) 2016]
  · have h1 : m * 2 ^ (8 * (e' - 3)) < 2 ^ 23 * 2 ^ 2016 := by
      calc m * 2 ^ (8 * (e' - 3)) < 2 ^ 23 * 2 ^ (8 * (e' - 3)) :=
            (Nat.mul_lt_mul_right (pow_pos (by norm_num) _)).mpr hm
        _ ≤ 2 ^ 23 * 2 ^ 2016 :=
            Nat.mul_le_mul_left _ (Nat.pow_le_pow_right (by norm_num) (by omega))
    have h2 : ((m * 2 ^ (8 * (e' - 3)) : ℕ) : ℤ) < (2 : ℤ) ^ 23 * 2 ^ 2016 := by
      exact_mod_cast h1
    omega

lemma roundtrip_le_small (v : ℕ) (hv : 0 < v) (he : byteLen v ≤ 3) :
    CompactToBig (BigToCompact (v : ℤ)) ≤ (v : ℤ) := by
  obtain ⟨he1, he2, he3⟩ := byteLen_bounds v hv
  rw [BigToCompact_natCast v hv, if_pos he]
  have hm0hi : v * 2 ^ (8 * (3 - byteLen v)) < 2 ^ 24 := by
    calc v * 2 ^ (8 * (3 - byteLen v))
        < 256 ^ byteLen v * 2 ^ (8 * (3 - byteLen v)) :=
          (Nat.mul_lt_mul_right (pow_pos (by norm_num) _)).mpr he3
      _ = 2 ^ (8 * byteLen v + 8 * (3 - byteLen v)) := by
          rw [pow256_eq, ← pow_add]
      _ ≤ 2 ^ 24 := Nat.pow_le_pow_right (by norm_num) (by omega)
  by_cases hb : v * 2 ^ (8 * (3 - byteLen v)) &&& 0x00800000 ≠ 0
  · have hb' : 2 ^ 23 ≤ v * 2 ^ (8 * (3 - byteLen v)) :=
      (and_signbit_lt _ hm0hi).mp hb
    rw [if_pos hb, Nat.shiftRight_eq_div_pow,
      Nat.mod_eq_of_lt (show byteLen v + 1 < 2 ^ 8 by omega),
      pack_or _ _ (by omega), CompactToBig_unpack_pos _ _ (by omega)]
    by_cases he4 : byteLen v + 1 ≤ 3
    · rw [if_pos he4]
      have hval : v * 2 ^ (8 * (3 - byteLen v)) / 2 ^ 8 / 2 ^ (8 * (3 - (byteLen v + 1))) = v := by
        rw [Nat.div_div_eq_div_mul, ← pow_add,
          show 8 + 8 * (3 - (byteLen v + 1)) = 8 * (3 - byteLen v) by omega]
        exact Nat.mul_div_cancel v (pow_pos (by norm_num) _)
      rw [hval]
    · rw [if_neg he4]
      have he3' : byteLen v = 3 := by omega
      have hval : v * 2 ^ (8 * (3 - byteLen v)) / 2 ^ 8 * 2 ^ (8 * (byteLen v + 1 - 3)) ≤ v := by
        rw [he3']
        simpa using Nat.div_mul_le_self v (2 ^ 8)
      exact_mod_cast hval
  · have hb' : v * 2 ^ (8 * (3 - byteLen v)) < 2 ^ 23 := by
      have hc : ¬(2 ^ 23 ≤ v * 2 ^ (8 * (3 - byteLen v))) :=
        fun hc => hb ((and_signbit_lt _ hm0hi).mpr hc)
      omega
    rw [if_neg hb, Nat.mod_eq_of_lt (show byteLen v < 2 ^ 8 by omega),
      pack_or _ _ hm0hi, CompactToBig_unpack_pos _ _ hb', if_pos he,
      Nat.mul_div_cancel v (pow_pos (by norm_num) _)]

lemma roundtrip_le_large (v : ℕ) (hv : 0 < v) (he : ¬byteLen v ≤ 3) :
    CompactToBig (BigToCompact (v : ℤ)) ≤ (v : ℤ) := by
  obtain ⟨he1, he2, he3⟩ := byteLen_bounds v hv
  rw [BigToCompact_natCast v hv, if_neg he]
  have hm0hi : v / 2 ^ (8 * (byteLen v - 3)) < 2 ^ 24 := by
    rw [Nat.div_lt_iff_lt_mul (pow_pos (by norm_num) _), ← pow_add]
    calc v < 256 ^ byteLen v := he3
      _ = 2 ^ (8 * byteLen v) := pow256_eq _
      _ = 2 ^ (24 + 8 * (byteLen v - 3)) := by congr 1; omega
  have hbig : ∀ e', 256 ≤ byteLen v → e' ≤ 255 → ∀ m, m < 2 ^ 23 →
      CompactToBig (e' * 2 ^ 24 + m) ≤ (v : ℤ) := by
    intro e' hv256 he' m hm
    have h1 : CompactToBig (e' * 2 ^ 24 + m) < (2 : ℤ) ^ 2040 := decode_pos_lt e' m hm he'
    have h2 : (2 : ℕ) ^ 2040 ≤ v := by
      calc (2 : ℕ) ^ 2040 = 256 ^ 255 := by rw [pow256_eq]
        _ ≤ 256 ^ (byteLen v - 1) := Nat.pow_le_pow_right (by norm_num) (by omega)
        _ ≤ v := he2
    have h2' : (2 : ℤ) ^ 2040 ≤ (v : ℤ) := by exact_mod_cast h2
    omega
  by_cases hb : v / 2 ^ (8 * (byteLen v - 3)) &&& 0x00800000 ≠ 0
  · have hb' : 2 ^ 23 ≤ v / 2 ^ (8 * (byteLen v - 3)) := (and_signbit_lt _ hm0hi).mp hb
    rw [if_pos hb, Nat.shiftRight_eq_div_pow]
    have hm2eq : v / 2 ^ (8 * (byteLen v - 3)) / 2 ^ 8 = v / 2 ^ (8 * (byteLen v - 2)) := by
      rw [Nat.div_div_eq_div_mul, ← pow_add,
        show 8 * (byteLen v - 3) + 8 = 8 * (byteLen v - 2) by omega]
    have hm2hi : v / 2 ^ (8 * (byteLen v - 3)) / 2 ^ 8 < 2 ^ 23 := by omega
    by_cases hee : byteLen v + 1 ≤ 255
    · rw [Nat.mod_eq_of_lt (show byteLen v + 1 < 2 ^ 8 by omega),
        pack_or _ _ (by omega), CompactToBig_unpack_pos _ _ hm2hi,
        if_neg (by omega), hm2eq,
        show 8 * (byteLen v + 1 - 3) = 8 * (byteLen v - 2) by omega]
      exact_mod_cast Nat.div_mul_le_self v _
    · by_cases he255 : byteLen v = 255
      · rw [he255] at hm0hi hb' hm2hi ⊢
        rw [show (255 + 1) % 2 ^ 8 = 0 by norm_num,
          pack_or _ _ (by omega), CompactToBig_unpack_pos _ _ (by omega),
          if_pos (by norm_num)]
        have h0 : v / 2 ^ (8 * (255 - 3)) / 2 ^ 8 / 2 ^ (8 * (3 - 0)) ≤ v :=
          le_trans (Nat.div_le_self _ _) (le_trans (Nat.div_le_self _ _) (Nat.div_le_self _ _))
        exact_mod_cast h0
      · rw [pack_or _ _ (by omega)]
        exact hbig _ (by omega) (by omega) _ hm2hi
  · have hb' : v / 2 ^ (8 * (byteLen v - 3)) < 2 ^ 23 := by
      have hc : ¬(2 ^ 23 ≤ v / 2 ^ (8 * (byteLen v - 3))) :=
        fun hc => hb ((and_signbit_lt _ hm0hi).mpr hc)
      omega
    rw [if_neg hb]
    by_cases hee : byteLen v ≤ 255
    · rw [Nat.mod_eq_of_lt (show byteLen v < 2 ^ 8 by omega),
        pack_or _ _ hm0hi, CompactToBig_unpack_pos _ _ hb', if_neg he]
      exact_mod_cast Nat.div_mul_le_self v _
    · rw [pack_or _ _ hm0hi]
      exact hbig _ (by omega) (by omega) _ hb'

/-- Round trip through the codec never increases a positive target. -/
lemma roundtrip_le (v : ℕ) (hv : 0 < v) :
    CompactToBig (BigToCompact (v : ℤ)) ≤ (v : ℤ) := by
  by_cases he : byteLen v ≤ 3
  · exact roundtrip_le_small v hv he
  · exact roundtrip_le_large v hv he

/-- Decoding a compact value with the sign bit set is never positive. -/
lemma CompactToBig_or_sign_nonpos (x : ℕ) : CompactToBig (x ||| 0x00800000) ≤ 0 := by
  unfold CompactToBig
  have h23 : (x ||| 0x00800000).testBit 23 = true := by
    rw [show (0x00800000 : ℕ) = 2 ^ 23 from by norm_num, Nat.testBit_or,
      Nat.testBit_two_pow_self, Bool.or_true]
  have hneg : (x ||| 0x00800000) &&& 0x00800000 ≠ 0 := by
    rw [and_signbit]
    have hdm := Nat.testBit_to_div_mod (x := x ||| 0x00800000) (i := 23)
    rw [h23] at hdm
    exact of_decide_eq_true hdm.symm
  rw [if_pos hneg, neg_nonpos]
  split <;> exact Int.natCast_nonneg _

/-- Round trip through the codec keeps non-positive targets non-positive. -/
lemma roundtrip_nonpos (t : ℤ) (ht : t ≤ 0) : CompactToBig (BigToCompact t) ≤ 0 := by
  rcases eq_or_lt_of_le ht with heq | hlt
  · rw [heq]
    decide
  · unfold BigToCompact
    rw [if_neg (by omega), if_pos hlt]
    exact CompactToBig_or_sign_nonpos _

/-- Unfolding `BigToCompact` on the negation of a positive natural whose trailing bits
(under the byte-length shift) are zero — the only situation the round-trip
theorems need.  The `big.Int.Rsh` floor shift is then exact. -/
lemma BigToCompact_neg_natCast (w : ℕ) (hw : 0 < w)
    (hdvd : ¬byteLen w ≤ 3 → 2 ^ (8 * (byteLen w - 3)) ∣ w) :
    BigToCompact (-(w : ℤ)) =
      ((if (if byteLen w ≤ 3 then w * 2 ^ (8 * (3 - byteLen w))
            else w / 2 ^ (8 * (byteLen w - 3))) &&& 0x00800000 ≠ 0 then
        (((byteLen w + 1) % 2 ^ 8) <<< 24) |||
          ((if byteLen w ≤ 3 then w * 2 ^ (8 * (3 - byteLen w))
            else w / 2 ^ (8 * (byteLen w - 3))) >>> 8)
      else
        ((byteLen w % 2 ^ 8) <<< 24) |||
          (if byteLen w ≤ 3 then w * 2 ^ (8 * (3 - byteLen w))
            else w / 2 ^ (8 * (byteLen w - 3)))) ||| 0x00800000) := by
  obtain ⟨he1, he2, he3⟩ := byteLen_bounds w hw
  have hne : -(w : ℤ) ≠ 0 := by
    simp only [neg_ne_zero]
    exact_mod_cast hw.ne'
  have hneg : -(w : ℤ) < 0 := neg_lt_zero.mpr (by exact_mod_cast hw)
  unfold BigToCompact
  rw [if_neg hne]
  simp only [Int.natAbs_neg, Int.natAbs_ofNat]
  by_cases he : byteLen w ≤ 3
  · have hw24 : w < 2 ^ 24 := by
      have hle : (256 : ℕ) ^ byteLen w ≤ 256 ^ 3 := Nat.pow_le_pow_right (by norm_num) he
      have h3 : (256 : ℕ) ^ 3 = 2 ^ 24 := by norm_num
      omega
    have hmod : w % 2 ^ 32 = w := Nat.mod_eq_of_lt (by omega)
    have hm0 : ((w % 2 ^ 32) <<< (8 * (3 - byteLen w))) % 2 ^ 32 =
        w * 2 ^ (8 * (3 - byteLen w)) := by
      rw [hmod, Nat.shiftLeft_eq]
      apply Nat.mod_eq_of_lt
      calc w * 2 ^ (8 * (3 - byteLen w))
          < 256 ^ byteLen w * 2 ^ (8 * (3 - byteLen w)) :=
            (Nat.mul_lt_mul_right (pow_pos (by norm_num) _)).mpr he3
        _ = 2 ^ (8 * byteLen w + 8 * (3 - byteLen w)) := by rw [pow256_eq, ← pow_add]
        _ ≤ 2 ^ 24 := Nat.pow_le_pow_right (by norm_num) (by omega)
        _ < 2 ^ 32 := by norm_num
    rw [if_pos he, hm0, if_pos hneg, if_pos he]
    by_cases hb : w * 2 ^ (8 * (3 - byteLen w)) &&& 0x00800000 ≠ 0 <;> simp [hb]
  · obtain ⟨q, hq⟩ := hdvd he
    have hqeq : w / 2 ^ (8 * (byteLen w - 3)) = q := by
      have h := Nat.mul_div_cancel_left q
        (pow_pos (show 0 < 2 by norm_num) (8 * (byteLen w - 3)))
      rw [← hq] at h
      exact h
    have hfd : (Int.fdiv (-(w : ℤ)) (2 ^ (8 * (byteLen w - 3)))).natAbs % 2 ^ 32 =
        w / 2 ^ (8 * (byteLen w - 3)) := by
      have hcast : -(w : ℤ) = (-(q : ℤ)) * 2 ^ (8 * (byteLen w - 3)) := by
        have h1 : (w : ℤ) = (2 : ℤ) ^ (8 * (byteLen w - 3)) * (q : ℤ) := by
          exact_mod_cast hq
        rw [h1]
        ring
      rw [hcast, Int.mul_fdiv_cancel _ (by positivity), Int.natAbs_neg, Int.natAbs_ofNat, hqeq]
      apply Nat.mod_eq_of_lt
      have h24 : w / 2 ^ (8 * (byteLen w - 3)) < 2 ^ 24 := by
        rw [Nat.div_lt_iff_lt_mul (pow_pos (by norm_num) _), ← pow_add]
        calc w < 256 ^ byteLen w := he3
          _ = 2 ^ (8 * byteLen w) := pow256_eq _
          _ = 2 ^ (24 + 8 * (byteLen w - 3)) := by congr 1; omega
      omega
    rw [if_neg he, hfd, if_pos hneg, if_neg he]
    by_cases hb : w / 2 ^ (8 * (byteLen w - 3)) &&& 0x00800000 ≠ 0 <;> simp [hb]

/-- Exact codec round trip on packed normalized compacts: mantissa with its
top byte nonzero, and no bits truncated by the decode shift. -/
lemma roundtrip_exact (e s m : ℕ) (he : e ≤ 255) (hs : s ≤ 1)
    (hm1 : 2 ^ 16 ≤ m) (hm2 : m < 2 ^ 23)
    (hex : e < 3 → m % 2 ^ (8 * (3 - e)) = 0) :
    BigToCompact (CompactToBig (e * 2 ^ 24 + s * 2 ^ 23 + m)) =
      e * 2 ^ 24 + s * 2 ^ 23 + m := by
  have he1 : 1 ≤ e := by
    rcases Nat.eq_zero_or_pos e with rfl | h
    · have := hex (by norm_num)
      simp only [Nat.sub_zero] at this
      omega
    · exact h
  rw [CompactToBig_unpack e s m hm2 hs]
  have hw_m : e ≤ 3 → (m / 2 ^ (8 * (3 - e))) * 2 ^ (8 * (3 - e)) = m := by
    intro h3
    rcases Nat.lt_or_ge e 3 with hlt | hge
    · exact Nat.div_mul_cancel (Nat.dvd_of_mod_eq_zero (hex hlt))
    · have h33 : e = 3 := by omega
      subst h33
      simp
  by_cases he3 : e ≤ 3
  · -- decode shifts the mantissa right; the hypothesis makes it exact
    rw [if_pos he3]
    set w : ℕ := m / 2 ^ (8 * (3 - e)) with hwdef
    have hwlo : 2 ^ (8 * (e - 1)) ≤ w := by
      rw [hwdef, Nat.le_div_iff_mul_le (pow_pos (by norm_num) _), ← pow_add]
      calc 2 ^ (8 * (e - 1) + 8 * (3 - e)) = 2 ^ 16 := by congr 1; omega
        _ ≤ m := hm1
    have hwhi : w < 2 ^ (8 * e) := by
      rw [hwdef, Nat.div_lt_iff_lt_mul (pow_pos (by norm_num) _), ← pow_add]
      have hexp : 8 * e + 8 * (3 - e) = 24 := by omega
      rw [hexp]
      omega
    have hwpos : 0 < w := lt_of_lt_of_le (pow_pos (by norm_num) _) hwlo
    have hbl : byteLen w = e := by
      apply byteLen_eq w e he1 <;> rw [pow256_eq]
      · exact hwlo
      · exact hwhi
    rcases Nat.le_one_iff_eq_zero_or_eq_one.mp hs with rfl | rfl
    · rw [if_pos rfl, one_mul, BigToCompact_natCast w hwpos, hbl, if_pos he3, hw_m he3,
        if_neg (show ¬(m &&& 0x00800000 ≠ 0) from
          fun hc => by have := (and_signbit_lt m (by omega)).mp hc; omega),
        Nat.mod_eq_of_lt (show e < 2 ^ 8 by omega), pack_or _ _ (by omega)]
      omega
    · rw [if_neg (by norm_num), neg_one_mul,
        BigToCompact_neg_natCast w hwpos
          (fun hc => absurd (show byteLen w ≤ 3 by rw [hbl]; exact he3) hc), hbl,
        if_pos he3, hw_m he3,
        if_neg (show ¬(m &&& 0x00800000 ≠ 0) from
          fun hc => by have := (and_signbit_lt m (by omega)).mp hc; omega),
        Nat.mod_eq_of_lt (show e < 2 ^ 8 by omega), pack_or _ _ (by omega),
        pack_or_sign _ _ (by omega)]
      omega
  · -- decode shifts the mantissa left; always exact
    rw [if_neg he3]
    set w : ℕ := m * 2 ^ (8 * (e - 3)) with hwdef
    have hwlo : 2 ^ (8 * (e - 1)) ≤ w := by
      rw [hwdef]
      calc 2 ^ (8 * (e - 1)) = 2 ^ 16 * 2 ^ (8 * (e - 3)) := by rw [← pow_add]; congr 1; omega
        _ ≤ m * 2 ^ (8 * (e - 3)) := Nat.mul_le_mul_right _ hm1
    have hwhi : w < 2 ^ (8 * e) := by
      rw [hwdef]
      calc m * 2 ^ (8 * (e - 3)) < 2 ^ 24 * 2 ^ (8 * (e - 3)) :=
            (Nat.mul_lt_mul_right (pow_pos (by norm_num) _)).mpr (by omega)
        _ = 2 ^ (8 * e) := by rw [← pow_add]; congr 1; omega
    have hwpos : 0 < w := lt_of_lt_of_le (pow_pos (by norm_num) _) hwlo
    have hbl : byteLen w = e := by
      apply byteLen_eq w e he1 <;> rw [pow256_eq]
      · exact hwlo
      · exact hwhi
    have hrec : w / 2 ^ (8 * (e - 3)) = m := by
      rw [hwdef]
      exact Nat.mul_div_cancel m (pow_pos (by norm_num) _)
    rcases Nat.le_one_iff_eq_zero_or_eq_one.mp hs with rfl | rfl
    · rw [if_pos rfl, one_mul, BigToCompact_natCast w hwpos, hbl, if_neg he3, hrec,
        if_neg (show ¬(m &&& 0x00800000 ≠ 0) from
          fun hc => by have := (and_signbit_lt m (by omega)).mp hc; omega),
        Nat.mod_eq_of_lt (show e < 2 ^ 8 by omega), pack_or _ _ (by omega)]
      omega
    · rw [if_neg (by norm_num), neg_one_mul,
        BigToCompact_neg_natCast w hwpos
          (fun _ => by rw [hbl]; exact ⟨m, by rw [hwdef]; ring⟩),
        hbl, if_neg he3, hrec,
        if_neg (show ¬(m &&& 0x00800000 ≠ 0) from
          fun hc => by have := (and_signbit_lt m (by omega)).mp hc; omega),
        Nat.mod_eq_of_lt (show e < 2 ^ 8 by omega), pack_or _ _ (by omega),
        pack_or_sign _ _ (by omega)]
      omega

/-! ### Facts about the event-horizon envelope and the scan loop -/

lemma eventHorizonDeviation_gt_one (s : ℤ) (hs : 1 ≤ s) :
    1 < eventHorizonDeviation s := by
  unfold eventHorizonDeviation
  have hpos : (0 : ℝ) < (s : ℝ) / 144 := by
    have : (0 : ℝ) < (s : ℝ) := by exact_mod_cast hs.trans_lt' (by norm_num)
    positivity
  have hrpow : (0 : ℝ) < ((s : ℝ) / 144) ^ (-1.228 : ℝ) :=
    Real.rpow_pos_of_pos hpos _
  have hc : (0 : ℝ) < 0.7084 := by norm_num
  nlinarith

/-- When `actualRate = 0` the rate ratio keeps its initial value 1, which is
strictly inside the event-horizon envelope, so the envelope break never
fires. -/
lemma kgw_not_break_zero_rate (s t : ℤ) (hs : 1 ≤ s) :
    ¬(144 ≤ s ∧
      (rateAdjustmentRatio 0 t ≤ 1 / eventHorizonDeviation s ∨
        eventHorizonDeviation s ≤ rateAdjustmentRatio 0 t)) := by
  rintro ⟨-, hout⟩
  have hratio : rateAdjustmentRatio 0 t = 1 := by
    unfold rateAdjustmentRatio
    rw [if_neg (by simp)]
  have hdev := eventHorizonDeviation_gt_one s hs
  have hdevpos : (0 : ℝ) < eventHorizonDeviation s := by linarith
  rw [hratio] at hout
  rcases hout with h | h
  · have : 1 / eventHorizonDeviation s < 1 := by
      rw [div_lt_one hdevpos]
      exact hdev
    linarith
  · linarith

/-- The envelope break requires at least `minBlocks` scanned samples. -/
lemma kgw_not_break_early (s : ℤ) (a t : ℤ) (hs : s < 144) :
    ¬(144 ≤ s ∧
      (rateAdjustmentRatio a t ≤ 1 / eventHorizonDeviation s ∨
        eventHorizonDeviation s ≤ rateAdjustmentRatio a t)) :=
  fun hc => absurd hc.1 (by omega)

lemma kgwIndex_of_bounds (headers : List BlockHeader) (idx : ℤ)
    (h1 : 0 ≤ (headers.length : ℤ) + idx) (h2 : (headers.length : ℤ) + idx < headers.length) :
    kgwIndex headers idx =
      some (headers.get ⟨((headers.length : ℤ) + idx).toNat, by omega⟩) := by
  unfold kgwIndex
  rw [dif_pos ⟨h1, h2⟩]

lemma kgwIndex_replicate (n : ℕ) (hd : BlockHeader) (idx : ℤ)
    (h1 : 0 ≤ (n : ℤ) + idx) (h2 : (n : ℤ) + idx < n) :
    kgwIndex (List.replicate n hd) idx = some hd := by
  unfold kgwIndex
  rw [dif_pos (show 0 ≤ ((List.replicate n hd).length : ℤ) + idx ∧
      ((List.replicate n hd).length : ℤ) + idx < ((List.replicate n hd).length : ℤ) by
    constructor <;> simp [List.length_replicate] <;> omega)]
  congr 1
  exact List.get_replicate _ _

lemma kgwIndex_none (headers : List BlockHeader) (idx : ℤ)
    (h : (headers.length : ℤ) + idx < 0) : kgwIndex headers idx = none := by
  unfold kgwIndex
  rw [dif_neg (by omega)]

/-- Running the scan loop over a window of identical headers: every iteration
keeps the average at the decoded difficulty and the elapsed time at zero, so
the loop walks clear down to `currentHeight = 1`, scanning 144 samples for a
start height of 144. -/
lemma kgwLoop_const_aux (hd : BlockHeader) (p : Params) :
    ∀ d fuel i : ℕ, ∀ st : KGWState,
      i + d = 144 → 1 ≤ i → d + 1 ≤ fuel →
      st.blocksScanned = (i : ℤ) - 1 →
      st.currentHeight = 145 - (i : ℤ) →
      st.idx = -1 - (i : ℤ) →
      st.currentBlock = hd →
      (2 ≤ i → st.previousDifficultyAverage = CompactToBig hd.Bits) →
      kgwLoop (List.replicate 146 hd) p hd fuel i st =
        .ok ⟨144, CompactToBig hd.Bits, CompactToBig hd.Bits, 0,
          p.TargetTimePerBlock * 144, 1, -145, hd⟩ := by
  intro d
  induction d with
  | zero =>
    intro fuel i st hid hi1 hfuel hbs hch hidx hcb hpav
    have hi : i = 144 := by omega
    subst hi
    obtain ⟨f, rfl⟩ : ∃ f, fuel = f + 1 := ⟨fuel - 1, by omega⟩
    simp only [kgwLoop, hbs, hch, hidx, hcb, sub_self, ite_self, sub_add_cancel]
    rw [if_neg (by norm_num), if_neg (by norm_num),
      if_neg (show ¬(144 : ℕ) = 1 by norm_num),
      hpav (by norm_num), sub_self, Int.zero_ediv, zero_add]
    split
    · norm_num
    · rw [if_pos (by norm_num)]
      norm_num
  | succ d ih =>
    intro fuel i st hid hi1 hfuel hbs hch hidx hcb hpav
    have hi143 : i ≤ 143 := by omega
    obtain ⟨f, rfl⟩ : ∃ f, fuel = f + 1 := ⟨fuel - 1, by omega⟩
    simp only [kgwLoop, hbs, hch, hidx, hcb, sub_self, ite_self, sub_add_cancel]
    rw [if_neg (by omega), if_neg (by omega)]
    have havg : (if i = 1 then CompactToBig hd.Bits
        else (CompactToBig hd.Bits - st.previousDifficultyAverage) / (i : ℤ)
          + st.previousDifficultyAverage) = CompactToBig hd.Bits := by
      by_cases hi2 : i = 1
      · rw [if_pos hi2]
      · rw [if_neg hi2, hpav (by omega), sub_self, Int.zero_ediv, zero_add]
    rw [havg]
    rw [if_neg (kgw_not_break_early _ _ _ (by omega))]
    rw [if_neg (by omega)]
    rw [kgwIndex_replicate 146 hd _ (by push_cast; omega) (by push_cast; omega)]
    have := ih f (i + 1)
      ⟨(i : ℤ), CompactToBig hd.Bits, CompactToBig hd.Bits, 0,
        p.TargetTimePerBlock * (i : ℤ), 145 - (i : ℤ) - 1, -1 - (i : ℤ) - 1, hd⟩
      (by omega) (by omega) (by omega)
      (by simp <;> push_cast <;> ring) (by simp <;> push_cast <;> ring)
      (by simp <;> push_cast <;> ring) (by simp)
      (by intro h; simp)
    exact this

lemma kgwLoopFull_const (hd : BlockHeader) (p : Params) :
    kgwLoopFull (List.replicate 146 hd) 145 p =
      .ok ⟨144, CompactToBig hd.Bits, CompactToBig hd.Bits, 0,
        p.TargetTimePerBlock * 144, 1, -145, hd⟩ := by
  unfold kgwLoopFull kgwFirstSample
  rw [kgwIndex_replicate 146 hd (-2) (by norm_num) (by norm_num)]
  exact kgwLoop_const_aux hd p 143 4033 1
    ⟨0, 0, 0, 0, 0, 145 - 1, -2, hd⟩
    (by norm_num) le_rfl (by norm_num) (by norm_num) (by norm_num) (by norm_num)
    rfl (by omega)

lemma kgwRawTarget_const (hd : BlockHeader) (p : Params) :
    kgwRawTarget (List.replicate 146 hd) 145 p = .ok (CompactToBig hd.Bits) := by
  unfold kgwRawTarget
  rw [kgwLoopFull_const]
  simp

lemma calcDiffAdjustKGW_const (hd : BlockHeader) (p : Params) :
    calcDiffAdjustKGW (List.replicate 146 hd) 145 p =
      .ok (BigToCompact
        (if p.PowLimit < CompactToBig hd.Bits then p.PowLimit
          else CompactToBig hd.Bits)) := by
  unfold calcDiffAdjustKGW
  rw [if_neg (by norm_num), kgwRawTarget_const]

lemma kgwIndex_congr (hs1 hs2 : List BlockHeader) (hlen : hs1.length = hs2.length)
    (hget : ∀ j : ℕ, j + 1 < hs1.length → hs1.get? j = hs2.get? j)
    (idx : ℤ) (hidx : idx ≤ -2) : kgwIndex hs1 idx = kgwIndex hs2 idx := by
  have hlen' : (hs1.length : ℤ) = (hs2.length : ℤ) := by exact_mod_cast hlen
  unfold kgwIndex
  by_cases hb : 0 ≤ (hs1.length : ℤ) + idx ∧ (hs1.length : ℤ) + idx < (hs1.length : ℤ)
  · rw [dif_pos hb, dif_pos (by omega)]
    have hj2 : ((hs2.length : ℤ) + idx).toNat = ((hs1.length : ℤ) + idx).toNat := by omega
    have hb1 : ((hs1.length : ℤ) + idx).toNat < hs1.length := by omega
    have hb2 : ((hs1.length : ℤ) + idx).toNat < hs2.length := by omega
    have hg1 := List.get?_eq_get hb1
    have hg2 := List.get?_eq_get hb2
    have heq : hs1.get? (((hs1.length : ℤ) + idx).toNat) =
        hs2.get? (((hs1.length : ℤ) + idx).toNat) :=
      hget _ (by omega)
    rw [hg1, hg2] at heq
    simpa [hj2] using heq
  · rw [dif_neg hb, dif_neg (by omega)]

lemma kgwLoop_congr (p : Params) (ls : BlockHeader) (hs1 hs2 : List BlockHeader)
    (hlen : hs1.length = hs2.length)
    (hget : ∀ j : ℕ, j + 1 < hs1.length → hs1.get? j = hs2.get? j) :
    ∀ fuel i : ℕ, ∀ st : KGWState, st.idx ≤ -2 →
      kgwLoop hs1 p ls fuel i st = kgwLoop hs2 p ls fuel i st := by
  intro fuel
  induction fuel with
  | zero => intro i st _; rfl
  | succ f ih =>
    intro i st hidx
    simp only [kgwLoop]
    by_cases h1 : st.currentHeight ≤ 0
    · simp only [if_pos h1]
    simp only [if_neg h1]
    by_cases h2 : 4032 < i
    · simp only [if_pos h2]
    simp only [if_neg h2]
    by_cases h3 : 144 ≤ st.blocksScanned + 1 ∧
        (rateAdjustmentRatio
            (if ls.Timestamp - st.currentBlock.Timestamp < 0 then 0
              else ls.Timestamp - st.currentBlock.Timestamp)
            (p.TargetTimePerBlock * (st.blocksScanned + 1))
          ≤ 1 / eventHorizonDeviation (st.blocksScanned + 1) ∨
          eventHorizonDeviation (st.blocksScanned + 1) ≤
            rateAdjustmentRatio
              (if ls.Timestamp - st.currentBlock.Timestamp < 0 then 0
                else ls.Timestamp - st.currentBlock.Timestamp)
              (p.TargetTimePerBlock * (st.blocksScanned + 1)))
    · simp only [if_pos h3]
    simp only [if_neg h3]
    by_cases h4 : st.currentHeight ≤ 1
    · simp only [if_pos h4]
    simp only [if_neg h4]
    rw [kgwIndex_congr hs1 hs2 hlen hget (st.idx - 1) (by omega)]
    cases hscrut : kgwIndex hs2 (st.idx - 1) with
    | none => rfl
    | some cb => exact ih (i + 1) _ (by simp; omega)

/-- Changing only the most recent header of the window never changes the
result: the scan starts at `headers[len-2]` and the last entry is never
read. -/
lemma calcDiffAdjustKGW_append_congr (hs : List BlockHeader) (b b' : BlockHeader)
    (height : ℤ) (p : Params) :
    calcDiffAdjustKGW (hs ++ [b]) height p =
      calcDiffAdjustKGW (hs ++ [b']) height p := by
  have hlen : (hs ++ [b]).length = (hs ++ [b']).length := by simp
  have hget : ∀ j : ℕ, j + 1 < (hs ++ [b]).length →
      (hs ++ [b]).get? j = (hs ++ [b']).get? j := by
    intro j hj
    simp only [List.length_append, List.length_singleton] at hj
    rw [List.get?_append (by omega), List.get?_append (by omega)]
  unfold calcDiffAdjustKGW kgwRawTarget kgwLoopFull kgwFirstSample
  by_cases hh : height - 1 < 144
  · rw [if_pos hh, if_pos hh]
  rw [if_neg hh, if_neg hh,
    kgwIndex_congr (hs ++ [b]) (hs ++ [b']) hlen hget (-2) (by norm_num)]
  cases hscrut : kgwIndex (hs ++ [b']) (-2) with
  | none => rfl
  | some cb =>
    have hcong := kgwLoop_congr p cb (hs ++ [b]) (hs ++ [b']) hlen hget 4033 1
      ⟨0, 0, 0, 0, 0, height - 1, -2, cb⟩ (by norm_num)
    simp only [hcong]

/-- With at least `maxBlocks + 2` headers every slice access of the scan is in
range, so the loop always returns normally. -/
lemma kgwLoop_no_panic (headers : List BlockHeader) (p : Params) (ls : BlockHeader)
    (hlen : 4034 ≤ headers.length) :
    ∀ fuel i : ℕ, ∀ st : KGWState, st.idx = -1 - (i : ℤ) → 1 ≤ i →
      ∃ st', kgwLoop headers p ls fuel i st = .ok st' := by
  intro fuel
  induction fuel with
  | zero => intro i st _ _; exact ⟨st, rfl⟩
  | succ f ih =>
    intro i st hidx hi1
    simp only [kgwLoop]
    by_cases h1 : st.currentHeight ≤ 0
    · rw [if_pos h1]; exact ⟨st, rfl⟩
    rw [if_neg h1]
    by_cases h2 : 4032 < i
    · rw [if_pos h2]; exact ⟨st, rfl⟩
    rw [if_neg h2]
    by_cases h3 : 144 ≤ st.blocksScanned + 1 ∧
        (rateAdjustmentRatio
            (if ls.Timestamp - st.currentBlock.Timestamp < 0 then 0
              else ls.Timestamp - st.currentBlock.Timestamp)
            (p.TargetTimePerBlock * (st.blocksScanned + 1))
          ≤ 1 / eventHorizonDeviation (st.blocksScanned + 1) ∨
          eventHorizonDeviation (st.blocksScanned + 1) ≤
            rateAdjustmentRatio
              (if ls.Timestamp - st.currentBlock.Timestamp < 0 then 0
                else ls.Timestamp - st.currentBlock.Timestamp)
              (p.TargetTimePerBlock * (st.blocksScanned + 1)))
    · rw [if_pos h3]; exact ⟨_, rfl⟩
    rw [if_neg h3]
    by_cases h4 : st.currentHeight ≤ 1
    · rw [if_pos h4]; exact ⟨_, rfl⟩
    rw [if_neg h4]
    rw [kgwIndex_of_bounds headers (st.idx - 1) (by push_cast [hidx]; omega)
      (by push_cast [hidx]; omega)]
    refine ih (i + 1) _ ?_ (by omega)
    simp [hidx] <;> push_cast <;> ring

lemma calcDiffAdjustKGW_of_rawTarget (headers : List BlockHeader) (height : ℤ)
    (p : Params) (t : ℤ) (hh : ¬(height - 1 < 144))
    (hraw : kgwRawTarget headers height p = .ok t) :
    calcDiffAdjustKGW headers height p =
      .ok (BigToCompact (if p.PowLimit < t then p.PowLimit else t)) := by
  unfold calcDiffAdjustKGW
  rw [if_neg hh, hraw]

lemma kgwIndex_isSome (headers : List BlockHeader) (idx : ℤ)
    (h1 : 0 ≤ (headers.length : ℤ) + idx)
    (h2 : (headers.length : ℤ) + idx < headers.length) :
    ∃ cb, kgwIndex headers idx = some cb :=
  ⟨_, kgwIndex_of_bounds headers idx h1 h2⟩

/-! ### The claims -/

/-- Claim C1, counterexample: at the window `replicate 145 ⟨0x1c00ffff,0⟩ ++
[⟨0x1b00ffff,0⟩]` and height 145 (so `height-1 ≥ 144`), the backward scan's
first sample (`headers[len-2]`) is **not** the most recent header of the
supplied window, and replacing that most recent header changes nothing — it is
never read. -/
theorem c1_counterexample :
    (144 : ℤ) ≤ 145 - 1 ∧
    (List.replicate 145 (⟨0x1c00ffff, 0⟩ : BlockHeader) ++
        [(⟨0x1b00ffff, 0⟩ : BlockHeader)]).getLast? = some ⟨0x1b00ffff, 0⟩ ∧
    kgwFirstSample (List.replicate 145 (⟨0x1c00ffff, 0⟩ : BlockHeader) ++
        [(⟨0x1b00ffff, 0⟩ : BlockHeader)]) ≠ some ⟨0x1b00ffff, 0⟩ ∧
    calcDiffAdjustKGW (List.replicate 145 (⟨0x1c00ffff, 0⟩ : BlockHeader) ++
        [(⟨0x1b00ffff, 0⟩ : BlockHeader)]) 145 VertcoinParams =
      calcDiffAdjustKGW (List.replicate 145 (⟨0x1c00ffff, 0⟩ : BlockHeader) ++
        [(⟨0x1c00ffff, 0⟩ : BlockHeader)]) 145 VertcoinParams :=
  ⟨by norm_num, by decide, by decide, calcDiffAdjustKGW_append_congr _ _ _ _ _⟩

/-- Claim C1 (amended): the backward scan's first sample is the
second-most-recent header (`headers[len-2]`), so the most recent header of
the supplied window is never read: for every call, replacing the last header
by anything leaves the result of `calcDiffAdjustKGW` unchanged — the window
is treated as ending at its penultimate entry and the block being priced is
never seen. -/
theorem c1_last_header_never_read (hs : List BlockHeader) (b b' : BlockHeader)
    (height : ℤ) (p : Params) :
    calcDiffAdjustKGW (hs ++ [b]) height p =
      calcDiffAdjustKGW (hs ++ [b']) height p :=
  calcDiffAdjustKGW_append_congr hs b b' height p

/-- Claim C2: for `height - 1 < 144` the Retargeting Calculator returns the
ceiling compact value `PowLimitBits` with no error, regardless of the
window's contents. -/
theorem c2_floor_returns_ceiling (headers : List BlockHeader) (height : ℤ)
    (p : Params) (h : height - 1 < 144) :
    calcDiffAdjustKGW headers height p = .ok p.PowLimitBits := by
  unfold calcDiffAdjustKGW
  rw [if_pos h]

/-- Claim C2, witness: a concrete call below the minimum height. -/
theorem c2_floor_returns_ceiling_witness :
    calcDiffAdjustKGW [] 0 VertcoinParams = .ok VertcoinParams.PowLimitBits :=
  c2_floor_returns_ceiling [] 0 VertcoinParams (by norm_num)

/-- Claim C3, counterexample: a window of identical headers with bits
`0x1f0fffff` at height 145 produces a raw target above the ceiling; the
returned compact is exactly `0x1e0fffff`, but it decodes to
`2^236 - 2^216`, **not** to the ceiling `2^236 - 1` as the claim states. -/
theorem c3_counterexample :
    kgwRawTarget (List.replicate 146 (⟨0x1f0fffff, 0⟩ : BlockHeader)) 145
        VertcoinParams = .ok (2 ^ 244 - 2 ^ 224) ∧
    VertcoinParams.PowLimit < 2 ^ 244 - 2 ^ 224 ∧
    calcDiffAdjustKGW (List.replicate 146 (⟨0x1f0fffff, 0⟩ : BlockHeader)) 145
        VertcoinParams = .ok 0x1e0fffff ∧
    CompactToBig 0x1e0fffff ≠ 2 ^ 236 - 1 := by
  refine ⟨?_, by decide, ?_, by decide⟩
  · rw [kgwRawTarget_const]
    decide
  · rw [calcDiffAdjustKGW_const]
    decide

/-- Claim C3 (amended): any window whose raw KGW target exceeds the ceiling
yields the compact encoding of the ceiling — for the reference parameters
exactly `PowLimitBits = 0x1e0fffff`, which decodes to `2^236 - 2^216`, the
ceiling truncated to the 23-bit mantissa (not to `2^236 - 1` itself). -/
theorem c3_clamp_to_ceiling (headers : List BlockHeader) (height : ℤ) (t : ℤ)
    (h1 : 144 ≤ height - 1)
    (h2 : kgwRawTarget headers height VertcoinParams = .ok t)
    (h3 : VertcoinParams.PowLimit < t) :
    calcDiffAdjustKGW headers height VertcoinParams =
      .ok VertcoinParams.PowLimitBits ∧
    CompactToBig VertcoinParams.PowLimitBits = 2 ^ 236 - 2 ^ 216 := by
  constructor
  · rw [calcDiffAdjustKGW_of_rawTarget headers height VertcoinParams t (by omega) h2,
      if_pos h3]
    decide
  · decide

/-- Claim C3, witness: the clamp fires at the concrete `0x1f0fffff` window. -/
theorem c3_clamp_to_ceiling_witness :
    calcDiffAdjustKGW (List.replicate 146 (⟨0x1f0fffff, 0⟩ : BlockHeader)) 145
        VertcoinParams = .ok VertcoinParams.PowLimitBits ∧
    CompactToBig VertcoinParams.PowLimitBits = 2 ^ 236 - 2 ^ 216 :=
  c3_clamp_to_ceiling (List.replicate 146 ⟨0x1f0fffff, 0⟩) 145 (2 ^ 244 - 2 ^ 224)
    (by norm_num) (by rw [kgwRawTarget_const]; decide) (by decide)

/-- Claim C4, counterexample: with an inconsistent parameter set
(`PowLimit = 1` but `PowLimitBits = 0x1e0fffff`) and `height - 1 < 144`, the
early return hands back `PowLimitBits`, which decodes far above `PowLimit` —
so the claim is false for *every* parameter set with positive `PowLimit`. -/
theorem c4_counterexample :
    (0 : ℤ) < (⟨1, 0x1e0fffff, 150⟩ : Params).PowLimit ∧
    calcDiffAdjustKGW [] 10 ⟨1, 0x1e0fffff, 150⟩ = .ok 0x1e0fffff ∧
    ¬(CompactToBig 0x1e0fffff ≤ (⟨1, 0x1e0fffff, 150⟩ : Params).PowLimit) :=
  ⟨by norm_num, by decide, by decide⟩

/-- Claim C4 (amended): for every window, height, and parameter set whose
`PowLimit` is positive and whose `PowLimitBits` decodes to at most
`PowLimit`, every compact returned by `calcDiffAdjustKGW` decodes to a target
`≤ PowLimit` — the clamp survives the lossy re-encoding by `BigToCompact`. -/
theorem c4_decode_le_powlimit (headers : List BlockHeader) (height : ℤ)
    (p : Params) (c : ℕ) (hpl : 0 < p.PowLimit)
    (hconsistent : CompactToBig p.PowLimitBits ≤ p.PowLimit)
    (hok : calcDiffAdjustKGW headers height p = .ok c) :
    CompactToBig c ≤ p.PowLimit := by
  unfold calcDiffAdjustKGW at hok
  by_cases hh : height - 1 < 144
  · rw [if_pos hh] at hok
    injection hok with h
    rw [← h]
    exact hconsistent
  · rw [if_neg hh] at hok
    cases hraw : kgwRawTarget headers height p with
    | error e =>
      rw [hraw] at hok
      exact absurd hok (by simp)
    | ok t =>
      rw [hraw] at hok
      injection hok with h
      rw [← h]
      have htle : (if p.PowLimit < t then p.PowLimit else t) ≤ p.PowLimit := by
        split <;> omega
      generalize hgen : (if p.PowLimit < t then p.PowLimit else t) = t'
      rw [hgen] at htle
      rcases le_or_lt t' 0 with hneg | hpos
      · have := roundtrip_nonpos t' hneg
        omega
      · obtain ⟨v, rfl⟩ : ∃ v : ℕ, t' = (v : ℤ) :=
          ⟨t'.toNat, (Int.toNat_of_nonneg hpos.le).symm⟩
        exact le_trans (roundtrip_le v (by exact_mod_cast hpos)) htle

/-- Claim C4, witness: a concrete consistent call. -/
theorem c4_decode_le_powlimit_witness :
    CompactToBig 0x1e0fffff ≤ VertcoinParams.PowLimit :=
  c4_decode_le_powlimit [] 0 VertcoinParams 0x1e0fffff (by decide) (by decide)
    (by decide)

/-- Claim C5, counterexample: `0x040000ff` has exponent 4, so decoding
truncates nothing (the decoded value is preserved exactly through a further
round trip), yet encode∘decode returns `0x0300ff00 ≠ 0x040000ff`: the
round trip also fails on non-normalized mantissas, not only at
mantissa-truncation boundaries. -/
theorem c5_counterexample :
    3 < (0x040000ff : ℕ) >>> 24 ∧
    BigToCompact (CompactToBig 0x040000ff) = 0x0300ff00 ∧
    (0x0300ff00 : ℕ) ≠ 0x040000ff ∧
    CompactToBig 0x0300ff00 = CompactToBig 0x040000ff :=
  ⟨by decide, by decide, by decide, by decide⟩

/-- Claim C5 (amended): for every 32-bit compact value whose mantissa is
normalized (top byte nonzero, `2^16 ≤ mantissa`) and whose low mantissa bits
survive the decode shift (automatic for exponent ≥ 3), decoding then encoding
reproduces the original compact value exactly — including values with the
sign bit set. -/
theorem c5_roundtrip_normalized (c : ℕ) (hc : c < 2 ^ 32)
    (hnorm : 2 ^ 16 ≤ c &&& 0x007fffff)
    (htrunc : c >>> 24 < 3 → (c &&& 0x007fffff) % 2 ^ (8 * (3 - c >>> 24)) = 0) :
    BigToCompact (CompactToBig c) = c := by
  have hm : c &&& 0x007fffff = c % 2 ^ 23 := and_mantissa c
  have hsr : c >>> 24 = c / 2 ^ 24 := Nat.shiftRight_eq_div_pow c 24
  have hdecomp : c = (c >>> 24) * 2 ^ 24 + (c / 2 ^ 23 % 2) * 2 ^ 23 + c % 2 ^ 23 := by
    rw [hsr]
    omega
  have he255 : c >>> 24 ≤ 255 := by rw [hsr]; omega
  have hs1 : c / 2 ^ 23 % 2 ≤ 1 := by omega
  have hm1 : 2 ^ 16 ≤ c % 2 ^ 23 := by omega
  have hm2 : c % 2 ^ 23 < 2 ^ 23 := by omega
  have hex : c >>> 24 < 3 → (c % 2 ^ 23) % 2 ^ (8 * (3 - c >>> 24)) = 0 := by
    intro h
    have := htrunc h
    rwa [hm] at this
  calc BigToCompact (CompactToBig c)
      = BigToCompact (CompactToBig
          ((c >>> 24) * 2 ^ 24 + (c / 2 ^ 23 % 2) * 2 ^ 23 + c % 2 ^ 23)) := by
        rw [← hdecomp]
    _ = (c >>> 24) * 2 ^ 24 + (c / 2 ^ 23 % 2) * 2 ^ 23 + c % 2 ^ 23 :=
        roundtrip_exact _ _ _ he255 hs1 hm1 hm2 hex
    _ = c := hdecomp.symm

/-- Claim C5, witness: a historical mainnet compact value round-trips. -/
theorem c5_roundtrip_normalized_witness :
    BigToCompact (CompactToBig 0x1b0404cb) = 0x1b0404cb :=
  c5_roundtrip_normalized 0x1b0404cb (by decide) (by decide) (by decide)

/-- Claim C6, counterexample: the decoded targets of `0x21010000` and
`0x21010001` are positive and strictly ordered (`2^256 < (2^16+1)·2^240`),
yet `CalcWork` gives 0 for both — strict antitonicity fails for huge
targets. -/
theorem c6_counterexample :
    (0 : ℤ) < CompactToBig 0x21010000 ∧
    CompactToBig 0x21010000 < CompactToBig 0x21010001 ∧
    ¬(CalcWork 0x21010001 < CalcWork 0x21010000) :=
  ⟨by decide, by decide, by decide⟩

/-- Claim C6 (amended): `CalcWork` is strictly antitone in the decoded target
whenever the floor divisions can still distinguish the targets — in
particular whenever `(t1+1)·(t2+1) ≤ 2^256` — and it returns 0 for every
compact whose decoded target is not positive. -/
theorem c6_calcwork_antitone :
    (∀ b1 b2 : ℕ, 0 < CompactToBig b1 → CompactToBig b1 < CompactToBig b2 →
      (CompactToBig b1 + 1) * (CompactToBig b2 + 1) ≤ 2 ^ 256 →
      CalcWork b2 < CalcWork b1) ∧
    (∀ b : ℕ, CompactToBig b ≤ 0 → CalcWork b = 0) := by
  constructor
  · intro b1 b2 h1 h2 hprod
    unfold CalcWork
    rw [if_neg (by omega), if_neg (by omega)]
    have hapos : (0 : ℤ) < CompactToBig b1 + 1 := by omega
    have hbpos : (0 : ℤ) < CompactToBig b2 + 1 := by omega
    have hq2 : CompactToBig b1 + 1 ≤ 2 ^ 256 / (CompactToBig b2 + 1) := by
      rw [Int.le_ediv_iff_mul_le hbpos]
      exact hprod
    have hdb : 2 ^ 256 / (CompactToBig b2 + 1) * (CompactToBig b2 + 1) ≤ 2 ^ 256 :=
      Int.ediv_mul_le _ (by omega)
    have hq2nn : (0 : ℤ) ≤ 2 ^ 256 / (CompactToBig b2 + 1) := le_trans (by omega) hq2
    have hkey : (2 ^ 256 / (CompactToBig b2 + 1) + 1) * (CompactToBig b1 + 1) ≤ 2 ^ 256 := by
      calc (2 ^ 256 / (CompactToBig b2 + 1) + 1) * (CompactToBig b1 + 1)
          = 2 ^ 256 / (CompactToBig b2 + 1) * (CompactToBig b1 + 1) +
            (CompactToBig b1 + 1) := by ring
        _ ≤ 2 ^ 256 / (CompactToBig b2 + 1) * (CompactToBig b1 + 1) +
            2 ^ 256 / (CompactToBig b2 + 1) := by omega
        _ = 2 ^ 256 / (CompactToBig b2 + 1) * (CompactToBig b1 + 2) := by ring
        _ ≤ 2 ^ 256 / (CompactToBig b2 + 1) * (CompactToBig b2 + 1) :=
            mul_le_mul_of_nonneg_left (by omega) hq2nn
        _ ≤ 2 ^ 256 := hdb
    have : 2 ^ 256 / (CompactToBig b2 + 1) + 1 ≤ 2 ^ 256 / (CompactToBig b1 + 1) := by
      rw [Int.le_ediv_iff_mul_le hapos]
      exact hkey
    omega
  · intro b hb
    unfold CalcWork
    rw [if_pos hb]

/-- Claim C6, witness: concrete strict decrease and the zero case. -/
theorem c6_calcwork_antitone_witness :
    CalcWork 0x04020000 < CalcWork 0x04010000 ∧ CalcWork 0x00800000 = 0 :=
  ⟨c6_calcwork_antitone.1 0x04010000 0x04020000 (by decide) (by decide) (by decide),
    c6_calcwork_antitone.2 0x00800000 (by decide)⟩

/-- Claim C7, counterexample: at difficulty `0x01010000` (decoded target 1,
work `2^255`) and hash rate `10^9 > 0`, the driver's reported time is **not**
the true quotient — `big.Int.Int64()` wraps it through the low 64 bits. -/
theorem c7_counterexample :
    (0 : ℤ) < 1000000000 ∧
    simTimeToBlock 0x01010000 1000000000 ≠
      some (CalcWork 0x01010000 / 1000000000) :=
  ⟨by norm_num, by decide⟩

/-- Claim C7 (amended): for every simulated block with positive hash rate the
reported time-to-block equals `CalcWork(diff) / hashRate` exactly, provided
that quotient fits in an `int64` (it is non-negative, so the bound is
`< 2^63`); outside that range `big.Int.Int64()` truncates. -/
theorem c7_time_consistency (diff : ℕ) (hashRate : ℤ) (hpos : 0 < hashRate)
    (hfit : CalcWork diff / hashRate < 2 ^ 63) :
    simTimeToBlock diff hashRate = some (CalcWork diff / hashRate) := by
  have hw : 0 ≤ CalcWork diff := by
    simp only [CalcWork]
    split
    · exact le_refl 0
    · exact Int.ediv_nonneg (by positivity) (by omega)
  have hq0 : 0 ≤ CalcWork diff / hashRate := Int.ediv_nonneg hw hpos.le
  simp only [simTimeToBlock, bigIntInt64, int64Wrap]
  rw [if_neg (show ¬hashRate = 0 by omega),
    if_neg (show ¬(CalcWork diff / hashRate < 0) by omega),
    Int.natAbs_of_nonneg hq0,
    Int.emod_eq_of_lt (by omega) (by omega)]
  congr 1
  ring

/-- Claim C7, witness: a concrete in-range quotient. -/
theorem c7_time_consistency_witness :
    simTimeToBlock 0x1e0fffff 1000000000000 =
      some (CalcWork 0x1e0fffff / 1000000000000) :=
  c7_time_consistency 0x1e0fffff 1000000000000 (by norm_num) (by decide)

/-- Claim C10: the driver's per-block time computation is total for every
positive hash rate, and for hash rate 0 (even with positive work) the
division panics — there is no guard, so only `hashRate > 0` makes the step
total, strictly stronger than accepting every non-negative hash rate. -/
theorem c10_zero_hashrate_guard (diff : ℕ) (hashRate : ℤ) :
    (0 < hashRate → (simTimeToBlock diff hashRate).isSome = true) ∧
    (hashRate = 0 → 0 < CalcWork diff → simTimeToBlock diff hashRate = none) := by
  constructor
  · intro h
    unfold simTimeToBlock
    rw [if_neg (by omega)]
    rfl
  · intro h _
    unfold simTimeToBlock
    rw [if_pos h]

/-- Claim C10, witness: concrete totality and failure cases. -/
theorem c10_zero_hashrate_guard_witness :
    (simTimeToBlock 0x01010000 1).isSome = true ∧
    simTimeToBlock 0x01010000 0 = none :=
  ⟨(c10_zero_hashrate_guard 0x01010000 1).1 (by norm_num),
    (c10_zero_hashrate_guard 0x01010000 0).2 rfl (by decide)⟩

/-- Claim C8: at height 146 (`height-1 = 145 ≥ 144`) with only two headers —
fewer than the scan horizon needs — `calcDiffAdjustKGW` does not report an
`InsufficientHistory` error: after the first iteration it indexes
`headers[len-3] = headers[-1]`, an out-of-range slice access, i.e. a Go
run-time panic rather than a returned error (the function's `error` result is
always `nil` in the source). -/
theorem c8_short_window_panics :
    calcDiffAdjustKGW (List.replicate 2 (⟨0x1d00ffff, 0⟩ : BlockHeader)) 146
        VertcoinParams = .error KGWPanic.indexOutOfRange := by
  unfold calcDiffAdjustKGW kgwRawTarget kgwLoopFull kgwFirstSample
  rw [if_neg (by norm_num),
    kgwIndex_replicate 2 _ (-2) (by norm_num) (by norm_num),
    show (4033 : ℕ) = 4032 + 1 from rfl]
  dsimp only
  rw [kgwLoop.eq_def]
  dsimp only
  rw [if_neg (show ¬((146 : ℤ) - 1 ≤ 0) by norm_num),
    if_neg (show ¬(4032 < 1) by norm_num),
    if_neg (kgw_not_break_early _ _ _ (by norm_num)),
    if_neg (show ¬((146 : ℤ) - 1 ≤ 1) by norm_num),
    kgwIndex_none _ _ (by norm_num)]

/-- Claim C9: with a window of at least `maxBlocks + 2 = 4034` headers, every
slice index the backward scan uses is in range (`headers[len-2]` down to at
worst `headers[len-4034]`), so `calcDiffAdjustKGW` always returns normally —
the out-of-range panic is unreachable. -/
theorem c9_long_window_total (headers : List BlockHeader) (height : ℤ)
    (p : Params) (hlen : 4034 ≤ headers.length) :
    ∃ c, calcDiffAdjustKGW headers height p = .ok c := by
  unfold calcDiffAdjustKGW
  by_cases hh : height - 1 < 144
  · exact ⟨p.PowLimitBits, by rw [if_pos hh]⟩
  rw [if_neg hh]
  unfold kgwRawTarget kgwLoopFull kgwFirstSample
  obtain ⟨cb, hcb⟩ := kgwIndex_isSome headers (-2) (by omega) (by omega)
  rw [hcb]
  dsimp only
  obtain ⟨st', hst'⟩ := kgwLoop_no_panic headers p cb hlen 4033 1
    ⟨0, 0, 0, 0, 0, height - 1, -2, cb⟩ (by norm_num) le_rfl
  rw [hst']
  exact ⟨_, rfl⟩

/-- Claim C9, witness: a concrete window of 4034 headers. -/
theorem c9_long_window_total_witness :
    ∃ c, calcDiffAdjustKGW (List.replicate 4034 (⟨0x1c00ffff, 0⟩ : BlockHeader))
        10 VertcoinParams = .ok c :=
  c9_long_window_total (List.replicate 4034 ⟨0x1c00ffff, 0⟩) 10 VertcoinParams
    (by rw [List.length_replicate])
